import Mathlib

/-
Verification of the retrieval-augmented question-answering core of the
rag-ai-wrapper repository: the text chunker (src/back/src/services/FileProcessor.ts,
class TextChunker), the embedding/similarity service (src/back/src/services/Embeddings.ts),
the in-memory vector store (src/services/VectorStore.ts) and the RAG orchestrator
(src/back/src/services/RagService.ts).

Modelling conventions:
  - JS strings are modelled as `List Char` (one entry per UTF-16 code unit of the
    source strings used here, which are all in the basic plane).
  - JS numbers are modelled as `ℚ`.  The literal 0.3 is modelled as the exact
    rational 3/10; every result proved below depends only on facts (such as
    "floor (n * 0.3) = 0 iff n ≤ 3") that hold for both the exact rational and
    the IEEE double.  Math.sqrt is modelled by ratSqrt, which is exact on
    perfect squares; no theorem below depends on the value of a square root
    beyond "it is zero iff its argument is zero" (for nonnegative arguments).
    The NaN produced by the division 0/0 in cosineSimilarity is made explicit
    in cosineSimilarityJs via the JsNumber type.
  - The external collaborators (the OpenAI embedding endpoint and the chat
    completion endpoint) are parameters: fallible functions returning Except.
  - The mutable singleton VectorStore is state-passed: its backing array is a
    `List EmbeddedChunk` threaded through the operations.
  - Wall-clock values (Date.now() in chunk ids, processedAt timestamps) are
    environment inputs no claim depends on; they are omitted from the ids.
-/

/-- Decidable test used to mirror JS truthiness / result inspection of an
Except value: true exactly on Except.ok. -/
def exceptOk {ε α : Type} : Except ε α → Bool
  | .ok _ => true
  | .error _ => false

/-- Model of String.prototype.trimStart: drop leading whitespace. -/
def trimLeft (l : List Char) : List Char :=
  l.dropWhile Char.isWhitespace

/-- Model of String.prototype.trimEnd: drop trailing whitespace. -/
def trimRight (l : List Char) : List Char :=
  (l.reverse.dropWhile Char.isWhitespace).reverse

/-- Model of String.prototype.trim (whitespace stripped from both ends). -/
def trimJs (l : List Char) : List Char :=
  trimRight (trimLeft l)

/-- Model of String.prototype.split(sep) for a one-character separator:
every occurrence of the separator splits, empty pieces are kept, and the
empty string yields one empty piece (as in JS). -/
def splitOnChar (sep : Char) : List Char → List (List Char)
  | [] => [[]]
  | c :: rest =>
    if c = sep then
      [] :: splitOnChar sep rest
    else
      match splitOnChar sep rest with
      | [] => [[c]]
      | p :: ps => (c :: p) :: ps

/-- Model of String.prototype.split on a character class such as /[.!?]/:
every character in seps splits. A regex split on the one-or-more form
/[.!?]+/ differs from this only by empty pieces between consecutive
separators; the chunker trims each piece and discards the empty ones
immediately afterwards, so the resulting sentence list is identical. -/
def splitAnyChar (seps : List Char) : List Char → List (List Char)
  | [] => [[]]
  | c :: rest =>
    if c ∈ seps then
      [] :: splitAnyChar seps rest
    else
      match splitAnyChar seps rest with
      | [] => [[c]]
      | p :: ps => (c :: p) :: ps

/-- Auxiliary state machine for splitting on runs of whitespace:
lastWs records whether the previous character was whitespace (so that a run
splits only once), acc is the current piece reversed. -/
def splitWsAux : List Char → Bool → List Char → List (List Char)
  | [], _, acc => [acc.reverse]
  | c :: rest, lastWs, acc =>
    if c.isWhitespace then
      if lastWs then
        splitWsAux rest true acc
      else
        acc.reverse :: splitWsAux rest true []
    else
      splitWsAux rest false (c :: acc)

/-- Model of String.prototype.split(/\s+/): pieces between maximal whitespace
runs; a leading run contributes a leading empty piece and the empty string
yields one empty piece, as in JS. -/
def splitWsRuns (l : List Char) : List (List Char) :=
  splitWsAux l false []

/-- Model of Array.prototype.join(sep): concatenate the pieces with the
separator list between consecutive pieces. -/
def joinWith {α : Type} (sep : List α) : List (List α) → List α
  | [] => []
  | [p] => p
  | p :: ps => p ++ sep ++ joinWith sep ps

/-- Truncation toward zero, the integer conversion applied by JS to the
argument of Array.prototype.slice (ToIntegerOrInfinity). -/
def jsTrunc (q : ℚ) : ℤ :=
  if q < 0 then -⌊-q⌋ else ⌊q⌋

/-- Model of Array.prototype.slice(start) with a single (relative) integer
argument: a negative start counts from the end, clamped at 0; note that
slice(-0) is slice(0) and returns the whole array. -/
def jsSlice {α : Type} (l : List α) (start : ℤ) : List α :=
  if start < 0 then
    l.drop ((l.length : ℤ) + start).toNat
  else
    l.drop start.toNat

/-- The predicate stating that a string does not end in whitespace
(vacuously true for the empty string). -/
def endsNonWs (l : List Char) : Prop :=
  ∀ c, l.getLast? = some c → c.isWhitespace = false

/-- The predicate stating that a string does not start with whitespace
(vacuously true for the empty string). -/
def headNonWs (l : List Char) : Prop :=
  ∀ c, l.head? = some c → c.isWhitespace = false

/-- The buffer obtained by appending each sentence to cur with the separator
rule of the chunk loop (a single space whenever the buffer is nonempty); this
is the value the loop's currentChunk holds after processing the sentences
without ever closing a passage. -/
def joinAcc (cur : List Char) : List (List Char) → List Char
  | [] => cur
  | s :: rest => joinAcc (cur ++ (if cur ≠ [] then [' '] else []) ++ s) rest

/-- Passage metadata, mirroring the Chunk.metadata object of
src/back/src/services/FileProcessor.ts. startChar and endChar are integers
because the incremental offset bookkeeping on line 68-73 of the source can
drive them negative. -/
structure ChunkMetadata where
  index : ℕ
  startChar : ℤ
  endChar : ℤ
  wordCount : ℕ
  source : Option (List Char)
deriving DecidableEq, Repr

/-- A passage produced by the chunker. The Date.now() suffix of the source
id string is a wall-clock value and is omitted. -/
structure Chunk where
  id : List Char
  content : List Char
  metadata : ChunkMetadata
deriving DecidableEq, Repr

/-- An embedded passage, mirroring EmbeddedChunk of
src/back/src/services/Embeddings.ts. -/
structure EmbeddedChunk where
  id : List Char
  content : List Char
  embedding : List ℚ
  metadata : ChunkMetadata
deriving DecidableEq, Repr

/-- An embedded passage together with its similarity score: the spread
object built on line 61-64 of src/back/src/services/Embeddings.ts. -/
structure SimilarChunk extends EmbeddedChunk where
  similarity : ℚ
deriving DecidableEq, Repr

/-- Document metadata computed by FileProcessor.processText; the processedAt
timestamp is a wall-clock value and is omitted. -/
structure DocumentMetadata where
  filename : List Char
  extension : List Char
  size : ℕ
  lines : ℕ
  words : ℕ
deriving DecidableEq, Repr

/-- Result object of FileProcessor.processText. -/
structure ProcessedDocument where
  content : List Char
  metadata : DocumentMetadata
deriving DecidableEq, Repr

/-- Result object of RagService.processDocument. -/
structure ProcessResult where
  filename : List Char
  chunks : ℕ
  metadata : DocumentMetadata
deriving DecidableEq, Repr

/-- One source attribution of an answer, as assembled on line 82-86 of
src/back/src/services/RagService.ts. -/
structure SourceAttribution where
  filename : Option (List Char)
  content : List Char
  similarity : ℚ
deriving DecidableEq, Repr

/-- The answer object returned by RagService.askQuestion. -/
structure Answer where
  answer : Option (List Char)
  sources : List SourceAttribution
deriving DecidableEq, Repr

/-- A JS number that may be NaN; used where the NaN produced by the source
matters (cosineSimilarityJs). -/
inductive JsNumber where
  | nan : JsNumber
  | val : ℚ → JsNumber
deriving DecidableEq, Repr

namespace FileProcessor

/-- Model of FileProcessor.processText of src/back/src/services/FileProcessor.ts:
the decoded buffer text is trimmed, and line/word counts are computed on the
untrimmed text. -/
def processText (buffer : List Char) (filename : List Char) : ProcessedDocument :=
  { content := trimJs buffer
    metadata :=
      { filename := filename
        extension := ((splitOnChar '.' filename).getLastD []).map Char.toLower
        size := buffer.length
        lines := (splitOnChar '\n' buffer).length
        words := ((splitWsRuns buffer).filter (fun w => w ≠ [])).length } }

end FileProcessor

namespace TextChunker

/-- Model of TextChunker.splitIntoSentences: split on terminal punctuation,
trim each piece, discard empty pieces. -/
def splitIntoSentences (text : List Char) : List (List Char) :=
  ((splitAnyChar ['.', '!', '?'] text).map trimJs).filter (fun s => s ≠ [])

/-- The word-count bound computed inside TextChunker.getOverlapText:
Math.min(Math.floor(words.length * 0.3), overlapSize / 10), as a rational
(the second argument of the min need not be an integer). -/
def overlapWordCount (wordsLen : ℕ) (overlapSize : ℤ) : ℚ :=
  min ((⌊(wordsLen : ℚ) * (3 / 10)⌋ : ℤ) : ℚ) ((overlapSize : ℚ) / 10)

/-- The integer finally handed to Array.prototype.slice inside getOverlapText:
the overlapWordCount value truncated toward zero by ToIntegerOrInfinity. -/
def overlapCount (wordsLen : ℕ) (overlapSize : ℤ) : ℤ :=
  jsTrunc (overlapWordCount wordsLen overlapSize)

/-- Model of TextChunker.getOverlapText: take the trailing overlapWords words
of the buffer. Note words.slice(-0) is words.slice(0), the whole buffer. -/
def getOverlapText (text : List Char) (overlapSize : ℤ) : List Char :=
  let words := splitOnChar ' ' text
  joinWith [' '] (jsSlice words (-(overlapCount words.length overlapSize)))

/-- Model of TextChunker.createChunk; the id is the source template
chunk_(index)_(Date.now()) without the wall-clock suffix. -/
def createChunk (content : List Char) (index : ℕ) (startChar : ℤ)
    (source : Option (List Char)) : Chunk :=
  let trimmedContent := trimJs content
  { id := ("chunk_".toList) ++ (toString index).toList
    content := trimmedContent
    metadata :=
      { index := index
        startChar := startChar
        endChar := startChar + trimmedContent.length
        wordCount := (splitWsRuns trimmedContent).length
        source := source } }

/-- The sentence loop of TextChunker.chunk, with the mutable locals
(currentChunk, currentIndex, startChar) passed as arguments and the emitted
chunks returned in order. -/
def chunkLoop (chunkSize overlap : ℤ) (source : Option (List Char)) :
    List (List Char) → List Char → ℕ → ℤ → List Chunk
  | [], currentChunk, currentIndex, startChar =>
    if trimJs currentChunk ≠ [] then
      [createChunk currentChunk currentIndex startChar source]
    else
      []
  | sentence :: rest, currentChunk, currentIndex, startChar =>
    let proposedChunk :=
      currentChunk ++ (if currentChunk ≠ [] then [' '] else []) ++ sentence
    if (proposedChunk.length : ℤ) > chunkSize ∧ 0 < currentChunk.length then
      let overlapText := getOverlapText currentChunk overlap
      let newChunk :=
        overlapText ++ (if overlapText ≠ [] then [' '] else []) ++ sentence
      createChunk currentChunk currentIndex startChar source ::
        chunkLoop chunkSize overlap source rest newChunk (currentIndex + 1)
          (startChar + (newChunk.length : ℤ) - (overlapText.length : ℤ)
            - (sentence.length : ℤ) - 1)
    else
      chunkLoop chunkSize overlap source rest proposedChunk currentIndex startChar

/-- Model of TextChunker.chunk of src/back/src/services/FileProcessor.ts. -/
def chunk (text : List Char) (chunkSize overlap : ℤ)
    (source : Option (List Char)) : List Chunk :=
  chunkLoop chunkSize overlap source (splitIntoSentences text) [] 0 0

end TextChunker

namespace EmbeddingService

/-- Model of the reduce on line 48 of src/back/src/services/Embeddings.ts:
a.reduce((sum, val, i) => sum + val * b[i], 0). The zip pairs a[i] with b[i];
it is exact whenever a is at most as long as b (cosineSimilarityJs guards the
other case, where the JS original reads past the end of b and yields NaN). -/
def dotProduct (a b : List ℚ) : ℚ :=
  (a.zip b).foldl (fun sum p => sum + p.1 * p.2) 0

/-- Model of the reduce on lines 49-50 of src/back/src/services/Embeddings.ts:
a.reduce((sum, val) => sum + val * val, 0). -/
def sumSquares (a : List ℚ) : ℚ :=
  a.foldl (fun sum val => sum + val * val) 0

/-- Model of Math.sqrt on the rationals: exact on rationals whose reduced
numerator and denominator are perfect squares (all square roots taken by the
claims below are of 0, 1 or 4), approximate elsewhere. The only property the
theorems rely on is that for q ≥ 0, ratSqrt q = 0 iff q = 0, which also holds
for the IEEE double square root. -/
def ratSqrt (q : ℚ) : ℚ :=
  (Nat.sqrt q.num.toNat : ℚ) / (Nat.sqrt q.den : ℚ)

/-- Model of EmbeddingService.cosineSimilarity (lines 47-52 of
src/back/src/services/Embeddings.ts): the quotient of the dot product by the
product of magnitudes, with no zero-magnitude check. Over ℚ a division by
zero evaluates to 0; the NaN the JS code produces there is made explicit in
cosineSimilarityJs. -/
def cosineSimilarity (a b : List ℚ) : ℚ :=
  dotProduct a b / (ratSqrt (sumSquares a) * ratSqrt (sumSquares b))

/-- The same computation with the IEEE special cases made explicit. When the
denominator magnitudeA * magnitudeB is zero, one of the vectors is the zero
vector, so the numerator is zero as well (dotProduct_eq_zero_of_sumSquares
below) and the JS division 0/0 yields NaN. When a is longer than b, the JS
reduce reads b[i] = undefined and the result is NaN as well. -/
def cosineSimilarityJs (a b : List ℚ) : JsNumber :=
  if a.length ≤ b.length then
    if ratSqrt (sumSquares a) * ratSqrt (sumSquares b) = 0 then
      JsNumber.nan
    else
      JsNumber.val (cosineSimilarity a b)
  else
    JsNumber.nan

/-- Model of EmbeddingService.embedChunks (lines 31-45 of
src/back/src/services/Embeddings.ts): one provider call per chunk, in order;
the first provider failure aborts the whole batch (an await that throws
propagates out of the loop). -/
def embedChunks {ε : Type} (createEmbedding : List Char → Except ε (List ℚ)) :
    List Chunk → Except ε (List EmbeddedChunk)
  | [] => .ok []
  | c :: rest =>
    match createEmbedding c.content with
    | .error e => .error e
    | .ok embedding =>
      match embedChunks createEmbedding rest with
      | .error e => .error e
      | .ok restEmbedded =>
        .ok ({ id := c.id, content := c.content, embedding := embedding
               metadata := c.metadata } :: restEmbedded)

/-- The ordering the comparator (a, b) => b.similarity - a.similarity induces:
a comes weakly before b when the comparator is nonpositive, i.e. when
b.similarity ≤ a.similarity. -/
def simGE (a b : SimilarChunk) : Prop :=
  b.similarity ≤ a.similarity

instance : DecidableRel simGE := fun a b =>
  inferInstanceAs (Decidable (b.similarity ≤ a.similarity))

instance : IsTotal SimilarChunk simGE :=
  ⟨fun a b => le_total b.similarity a.similarity⟩

instance : IsTrans SimilarChunk simGE :=
  ⟨fun _ _ _ h1 h2 => le_trans h2 h1⟩

/-- The pure body of findSimilarChunks (lines 61-68 of
src/back/src/services/Embeddings.ts): score every chunk, sort by the
comparator (a, b) => b.similarity - a.similarity, take the first limit
entries. Array.prototype.sort is stable (ES2019), and for this comparator a
stable sort is exactly the stable insertion sort along simGE. -/
def rankChunks (queryEmbedding : List ℚ) (chunks : List EmbeddedChunk)
    (limit : ℕ) : List SimilarChunk :=
  let similarities := chunks.map fun chunk =>
    { toEmbeddedChunk := chunk
      similarity := cosineSimilarity queryEmbedding chunk.embedding : SimilarChunk }
  (List.insertionSort simGE similarities).take limit

/-- Model of EmbeddingService.findSimilarChunks (lines 54-69 of
src/back/src/services/Embeddings.ts): embed the query through the provider,
then rank the corpus against it. -/
def findSimilarChunks {ε : Type} (createEmbedding : List Char → Except ε (List ℚ))
    (query : List Char) (chunks : List EmbeddedChunk) (limit : ℕ) :
    Except ε (List SimilarChunk) :=
  match createEmbedding query with
  | .error e => .error e
  | .ok queryEmbedding => .ok (rankChunks queryEmbedding chunks limit)

end EmbeddingService

namespace VectorStore

/-- Model of VectorStore.addChunks (src/services/VectorStore.ts line 63-65):
this.chunks.push(...chunks), a plain append to the backing array. -/
def addChunks (store chunks : List EmbeddedChunk) : List EmbeddedChunk :=
  store ++ chunks

/-- Model of VectorStore.getAllChunks. -/
def getAllChunks (store : List EmbeddedChunk) : List EmbeddedChunk :=
  store

end VectorStore

namespace RagService

/-- Model of RagService.processDocument (lines 22-43 of
src/back/src/services/RagService.ts) with the vector-store state passed
explicitly: decode and trim, chunk with chunkSize 500 and overlap 50, embed
every chunk through the provider, then append to the store. The pair returned
is (request outcome, store after the call); a provider failure propagates as
an Except.error and the store is left untouched because addChunks only runs
after the whole batch embedded. -/
def processDocument {ε : Type} (createEmbedding : List Char → Except ε (List ℚ))
    (store : List EmbeddedChunk) (buffer filename : List Char) :
    Except ε ProcessResult × List EmbeddedChunk :=
  let processed := FileProcessor.processText buffer filename
  let chunks := TextChunker.chunk processed.content 500 50 (some filename)
  match EmbeddingService.embedChunks createEmbedding chunks with
  | .error e => (.error e, store)
  | .ok embeddedChunks =>
    (.ok { filename := filename, chunks := chunks.length
           metadata := processed.metadata },
     VectorStore.addChunks store embeddedChunks)

/-- The fixed sentinel answer returned by RagService.askQuestion when no
documents are indexed (line 50-51 of src/back/src/services/RagService.ts). -/
def noDocumentsSentinel : List Char :=
  ("Aucun document n\x27a été traité. Veuillez d\x27abord uploader des documents.").toList

/-- Model of RagService.askQuestion (lines 45-88 of
src/back/src/services/RagService.ts). The chat-completion collaborator is
modelled as a fallible function of the user-message content it is sent
(the system prompt is a constant); its nullable message content is an Option.
An empty corpus short-circuits to the sentinel answer before either
collaborator is consulted. -/
def askQuestion {ε : Type} (store : List EmbeddedChunk)
    (createEmbedding : List Char → Except ε (List ℚ))
    (complete : List Char → Except ε (Option (List Char)))
    (question : List Char) : Except ε Answer :=
  let allChunks := VectorStore.getAllChunks store
  if allChunks.length = 0 then
    .ok { answer := some noDocumentsSentinel, sources := [] }
  else
    match EmbeddingService.findSimilarChunks createEmbedding question allChunks 3 with
    | .error e => .error e
    | .ok relevantChunks =>
      let context := joinWith ("\n\n".toList) (relevantChunks.map fun c => c.content)
      match complete ("Contexte:\n".toList ++ context ++ "\n\nQuestion: ".toList ++ question) with
      | .error e => .error e
      | .ok answerText =>
        .ok { answer := answerText
              sources := relevantChunks.map fun chunk =>
                { filename := chunk.metadata.source
                  content := chunk.content.take 100 ++ "...".toList
                  similarity := chunk.similarity } }

end RagService

/-- Concrete metadata used by the concrete inputs below. -/
def mdEx : ChunkMetadata :=
  { index := 0, startChar := 0, endChar := 5, wordCount := 1, source := none }

/-- A concrete embedded passage, used to exhibit the duplicate left by two
addChunks calls with the same id. -/
def pEx : EmbeddedChunk :=
  { id := "p1".toList, content := "hello".toList, embedding := [1], metadata := mdEx }

/-- A concrete stored passage whose embedding has dimension 2, establishing
the dimension of an index. -/
def estChunk : EmbeddedChunk :=
  { id := "e1".toList, content := "base".toList, embedding := [1, 0], metadata := mdEx }

/-- A provider that fails on every input. -/
def failProvider : List Char → Except Unit (List ℚ) :=
  fun _ => .error ()

/-- A provider that returns the one-dimensional vector [1] for every input. -/
def dim1Provider : List Char → Except Unit (List ℚ) :=
  fun _ => .ok [1]

/-- A two-chunk corpus whose members both score similarity 1 against the
query embedding [1] (their embeddings are parallel to it). -/
def corpusEx : List EmbeddedChunk :=
  [{ id := "c1".toList, content := "first".toList, embedding := [1], metadata := mdEx },
   { id := "c2".toList, content := "second".toList, embedding := [2], metadata := mdEx }]

/-! ### Helper lemmas about the string primitives -/

/-- A nonempty dropWhile starts with an element falsifying the predicate. -/
theorem head?_dropWhile_false {p : Char → Bool} :
    ∀ (l : List Char) (c : Char), (l.dropWhile p).head? = some c → p c = false := by
  intro l
  induction l with
  | nil => intro c h; simp at h
  | cons a l ih =>
    intro c h
    by_cases hp : p a
    · rw [List.dropWhile_cons, if_pos hp] at h
      exact ih c h
    · rw [List.dropWhile_cons, if_neg hp] at h
      simp only [List.head?_cons, Option.some.injEq] at h
      subst h
      simpa using hp

theorem trimLeft_headNonWs (l : List Char) : headNonWs (trimLeft l) := by
  intro c h
  exact head?_dropWhile_false l c h

theorem trimRight_endsNonWs (l : List Char) : endsNonWs (trimRight l) := by
  intro c h
  rw [trimRight, List.getLast?_reverse] at h
  exact head?_dropWhile_false l.reverse c h

theorem trimJs_endsNonWs (l : List Char) : endsNonWs (trimJs l) :=
  trimRight_endsNonWs (trimLeft l)

/-- trimRight is an initial segment of its argument. -/
theorem trimRight_isInitial (l : List Char) : trimRight l <+: l := by
  have h : (l.reverse.dropWhile Char.isWhitespace).reverse <+: l.reverse.reverse :=
    List.reverse_prefix.mpr (List.dropWhile_suffix _)
  simpa [trimRight] using h

theorem trimJs_headNonWs (l : List Char) : headNonWs (trimJs l) := by
  intro c h
  obtain ⟨t, ht⟩ := trimRight_isInitial (trimLeft l)
  apply trimLeft_headNonWs l c
  have h' : (trimRight (trimLeft l)).head? = some c := h
  rw [← ht, List.head?_append, h']
  rfl

theorem trimLeft_eq_self {l : List Char} (h : headNonWs l) : trimLeft l = l := by
  cases l with
  | nil => rfl
  | cons a l =>
    have ha : a.isWhitespace = false := h a rfl
    rw [trimLeft, List.dropWhile_cons, if_neg (by simp [ha])]

theorem trimRight_eq_self {l : List Char} (h : endsNonWs l) : trimRight l = l := by
  cases hl : l.reverse with
  | nil =>
    have : l = [] := by simpa using congrArg List.reverse hl
    simp [this, trimRight]
  | cons a t =>
    have ha : l.getLast? = some a := by
      rw [← List.head?_reverse, hl]; rfl
    have hws : a.isWhitespace = false := h a ha
    rw [trimRight, hl, List.dropWhile_cons, if_neg (by simp [hws]), ← hl,
      List.reverse_reverse]

theorem trimJs_eq_self {l : List Char} (hh : headNonWs l) (he : endsNonWs l) :
    trimJs l = l := by
  rw [trimJs, trimLeft_eq_self hh, trimRight_eq_self he]

theorem trimJs_ne_nil {l : List Char} (hh : headNonWs l) (hne : l ≠ []) :
    trimJs l ≠ [] := by
  rw [trimJs, trimLeft_eq_self hh]
  intro hcontra
  cases l with
  | nil => exact hne rfl
  | cons a t =>
    have ha : a.isWhitespace = false := hh a rfl
    have h2 := congrArg List.reverse hcontra
    rw [trimRight, List.reverse_reverse, List.reverse_nil] at h2
    have hall := List.dropWhile_eq_nil_iff.mp h2
    have := hall a (by simp)
    rw [ha] at this
    exact Bool.false_ne_true this

theorem trimJs_length_le (l : List Char) : (trimJs l).length ≤ l.length := by
  have h1 : (trimJs l).length ≤ (trimLeft l).length := by
    have hs : ((trimLeft l).reverse.dropWhile Char.isWhitespace).length
        ≤ (trimLeft l).reverse.length :=
      (List.dropWhile_suffix _).sublist.length_le
    calc (trimJs l).length
        = ((trimLeft l).reverse.dropWhile Char.isWhitespace).length := by
          rw [trimJs, trimRight, List.length_reverse]
      _ ≤ (trimLeft l).reverse.length := hs
      _ = (trimLeft l).length := List.length_reverse _
  have h2 : (trimLeft l).length ≤ l.length :=
    (List.dropWhile_suffix _).sublist.length_le
  exact le_trans h1 h2

/-- The last element of an append with a nonempty right part. -/
theorem endsNonWs_append {s : List Char} (hne : s ≠ []) (he : endsNonWs s)
    (x : List Char) : endsNonWs (x ++ s) := by
  intro c h
  apply he c
  rw [List.getLast?_append] at h
  cases hs : s.getLast? with
  | none =>
    exact absurd (List.getLast?_eq_none_iff.mp hs) hne
  | some d =>
    rw [hs] at h
    have hd : d = c := by simpa using h
    exact congrArg some hd

/-! ### Helper lemmas about splitOnChar and joinWith -/

theorem joinWith_cons_cons {α : Type} (sep : List α) (p q : List α)
    (qs : List (List α)) :
    joinWith sep (p :: q :: qs) = p ++ sep ++ joinWith sep (q :: qs) := rfl

theorem joinWith_singleton {α : Type} (sep : List α) (p : List α) :
    joinWith sep [p] = p := rfl

theorem splitOnChar_ne_nil (sep : Char) (l : List Char) : splitOnChar sep l ≠ [] := by
  cases l with
  | nil => simp [splitOnChar]
  | cons c rest =>
    simp only [splitOnChar]
    split
    · simp
    · split
      · simp
      · simp

/-- Joining a single-character split with the same character is the identity:
the model of text.split(sep).join(sep) === text. -/
theorem joinWith_splitOnChar (sep : Char) : ∀ l : List Char,
    joinWith [sep] (splitOnChar sep l) = l := by
  intro l
  induction l with
  | nil => rfl
  | cons c rest ih =>
    by_cases hc : c = sep
    · subst hc
      rw [splitOnChar, if_pos rfl]
      cases hr : splitOnChar c rest with
      | nil => exact absurd hr (splitOnChar_ne_nil c rest)
      | cons p ps =>
        rw [hr] at ih
        calc joinWith [c] ([] :: p :: ps) = [] ++ [c] ++ joinWith [c] (p :: ps) :=
              joinWith_cons_cons [c] [] p ps
          _ = c :: rest := by rw [ih]; rfl
    · rw [splitOnChar, if_neg hc]
      cases hr : splitOnChar sep rest with
      | nil => exact absurd hr (splitOnChar_ne_nil sep rest)
      | cons p ps =>
        rw [hr] at ih
        cases ps with
        | nil =>
          rw [joinWith_singleton] at ih
          rw [joinWith_singleton, ih]
        | cons q qs =>
          calc joinWith [sep] ((c :: p) :: q :: qs)
              = (c :: p) ++ [sep] ++ joinWith [sep] (q :: qs) :=
                joinWith_cons_cons [sep] (c :: p) q qs
            _ = c :: (p ++ [sep] ++ joinWith [sep] (q :: qs)) := by simp
            _ = c :: joinWith [sep] (p :: q :: qs) := by
                rw [joinWith_cons_cons]
            _ = c :: rest := by rw [ih]

/-- The last piece of a single-character split of a string not ending in the
separator is nonempty. -/
theorem splitOnChar_getLast_ne_nil (sep : Char) :
    ∀ l : List Char, l ≠ [] → (∀ c, l.getLast? = some c → c ≠ sep) →
      ∀ w, (splitOnChar sep l).getLast? = some w → w ≠ [] := by
  intro l
  induction l with
  | nil => intro h; exact absurd rfl h
  | cons c rest ih =>
    intro _ he w hw
    cases rest with
    | nil =>
      have hc : c ≠ sep := he c rfl
      rw [splitOnChar, if_neg hc] at hw
      simp only [splitOnChar] at hw
      simp only [List.getLast?_singleton, Option.some.injEq] at hw
      subst hw
      simp
    | cons d rest' =>
      have hne' : d :: rest' ≠ [] := by simp
      have he' : ∀ x, (d :: rest').getLast? = some x → x ≠ sep := by
        intro x hx
        apply he x
        rwa [List.getLast?_cons_cons]
      by_cases hc : c = sep
      · rw [splitOnChar, if_pos hc] at hw
        cases hr : splitOnChar sep (d :: rest') with
        | nil => exact absurd hr (splitOnChar_ne_nil sep _)
        | cons p ps =>
          rw [hr, List.getLast?_cons_cons] at hw
          rw [hr] at ih
          exact ih hne' he' w hw
      · rw [splitOnChar, if_neg hc] at hw
        cases hr : splitOnChar sep (d :: rest') with
        | nil => exact absurd hr (splitOnChar_ne_nil sep _)
        | cons p ps =>
          rw [hr] at hw ih
          cases ps with
          | nil =>
            simp only [List.getLast?_singleton, Option.some.injEq] at hw
            subst hw
            simp
          | cons q qs =>
            rw [List.getLast?_cons_cons] at hw
            apply ih hne' he' w
            rwa [List.getLast?_cons_cons]

/-- Joining pieces whose last piece is nonempty yields a nonempty string. -/
theorem joinWith_ne_nil (sep : List Char) :
    ∀ ps : List (List Char), ∀ w, ps.getLast? = some w → w ≠ [] →
      joinWith sep ps ≠ [] := by
  intro ps
  induction ps with
  | nil => intro w hw; simp at hw
  | cons p ps ih =>
    intro w hw hwne
    cases ps with
    | nil =>
      simp only [List.getLast?_singleton, Option.some.injEq] at hw
      subst hw
      simpa [joinWith] using hwne
    | cons q qs =>
      rw [List.getLast?_cons_cons] at hw
      have hj := ih w hw hwne
      rw [joinWith_cons_cons]
      simp only [ne_eq, List.append_assoc, List.append_eq_nil]
      intro hcontra
      exact hj hcontra.2.2

/-- Dropping fewer than all elements preserves the last element. -/
theorem getLast?_drop_of_lt {α : Type} {l : List α} {i : ℕ} (h : i < l.length) :
    (l.drop i).getLast? = l.getLast? := by
  conv_rhs => rw [← List.take_append_drop i l]
  rw [List.getLast?_append]
  have hne : l.drop i ≠ [] := by
    rw [ne_eq, List.drop_eq_nil_iff]
    omega
  cases hd : (l.drop i).getLast? with
  | none => exact absurd (List.getLast?_eq_none_iff.mp hd) hne
  | some d => rfl

/-! ### Helper lemmas about the overlap computation -/

theorem jsTrunc_zero : jsTrunc 0 = 0 := by
  simp [jsTrunc]

theorem jsTrunc_nonneg {q : ℚ} (h : 0 ≤ q) : 0 ≤ jsTrunc q := by
  rw [jsTrunc, if_neg (not_lt.mpr h)]
  exact Int.floor_nonneg.mpr h

theorem overlapWordCount_nonneg (wordsLen : ℕ) {ov : ℤ} (hov : 0 ≤ ov) :
    0 ≤ TextChunker.overlapWordCount wordsLen ov := by
  rw [TextChunker.overlapWordCount]
  apply le_min
  · have : (0 : ℚ) ≤ (wordsLen : ℚ) * (3 / 10) := by positivity
    exact_mod_cast Int.floor_nonneg.mpr this
  · have h10 : (0 : ℚ) ≤ (ov : ℚ) := by exact_mod_cast hov
    positivity

theorem overlapCount_nonneg (wordsLen : ℕ) {ov : ℤ} (hov : 0 ≤ ov) :
    0 ≤ TextChunker.overlapCount wordsLen ov :=
  jsTrunc_nonneg (overlapWordCount_nonneg wordsLen hov)

/-- When the computed slice count is 0, slice(-0) is slice(0) and
getOverlapText returns the whole buffer. -/
theorem getOverlapText_count_zero {text : List Char} {ov : ℤ}
    (h : TextChunker.overlapCount (splitOnChar ' ' text).length ov = 0) :
    TextChunker.getOverlapText text ov = text := by
  rw [TextChunker.getOverlapText]
  rw [h]
  simpa [jsSlice] using joinWith_splitOnChar ' ' text

/-- With a nonnegative overlap parameter, the overlap text of a nonempty
buffer not ending in whitespace is nonempty: either the count is 0 (the whole
buffer is returned) or at least the last word, which is nonempty, survives. -/
theorem getOverlapText_ne_nil {cur : List Char} (hne : cur ≠ [])
    (he : endsNonWs cur) {ov : ℤ} (hov : 0 ≤ ov) :
    TextChunker.getOverlapText cur ov ≠ [] := by
  set words := splitOnChar ' ' cur with hwords
  have hk : 0 ≤ TextChunker.overlapCount words.length ov :=
    overlapCount_nonneg words.length hov
  rcases eq_or_lt_of_le hk with hk0 | hkpos
  · rw [getOverlapText_count_zero hk0.symm]
    exact hne
  · rw [TextChunker.getOverlapText]
    rw [← hwords]
    set k := TextChunker.overlapCount words.length ov with hkdef
    have hwne : words ≠ [] := splitOnChar_ne_nil ' ' cur
    have hwlen : 0 < words.length := List.length_pos.mpr hwne
    rw [jsSlice, if_pos (by omega : -k < 0)]
    set i := ((words.length : ℤ) + -k).toNat with hi
    have hilt : i < words.length := by omega
    have hlast : (words.drop i).getLast? = words.getLast? :=
      getLast?_drop_of_lt hilt
    have hlw : ∀ c, cur.getLast? = some c → c ≠ ' ' := by
      intro c hc hsp
      have := he c hc
      rw [hsp] at this
      simp [Char.isWhitespace] at this
    cases hwl : words.getLast? with
    | none => exact absurd (List.getLast?_eq_none_iff.mp hwl) hwne
    | some w =>
      have hwne' : w ≠ [] := splitOnChar_getLast_ne_nil ' ' cur hne hlw w hwl
      exact joinWith_ne_nil [' '] (words.drop i) w (by rw [hlast, hwl]) hwne'

/-! ### Helper lemmas about sentences and the chunk loop -/

theorem splitAnyChar_ne_nil (seps : List Char) (l : List Char) :
    splitAnyChar seps l ≠ [] := by
  cases l with
  | nil => simp [splitAnyChar]
  | cons c rest =>
    simp only [splitAnyChar]
    split
    · simp
    · split
      · simp
      · simp

/-- Every sentence produced by splitIntoSentences is nonempty and starts and
ends in non-whitespace (it is a nonempty trim). -/
theorem mem_splitIntoSentences {text s : List Char}
    (hs : s ∈ TextChunker.splitIntoSentences text) :
    s ≠ [] ∧ headNonWs s ∧ endsNonWs s := by
  rw [TextChunker.splitIntoSentences] at hs
  have h1 := List.of_mem_filter hs
  have h2 := List.mem_of_mem_filter hs
  obtain ⟨p, _, hp⟩ := List.mem_map.mp h2
  have hne : s ≠ [] := by simpa using h1
  subst hp
  exact ⟨hne, trimJs_headNonWs p, trimJs_endsNonWs p⟩

theorem createChunk_startChar (content : List Char) (idx : ℕ) (st : ℤ)
    (src : Option (List Char)) :
    (TextChunker.createChunk content idx st src).metadata.startChar = st := rfl

theorem createChunk_content (content : List Char) (idx : ℕ) (st : ℤ)
    (src : Option (List Char)) :
    (TextChunker.createChunk content idx st src).content = trimJs content := rfl

theorem createChunk_endChar (content : List Char) (idx : ℕ) (st : ℤ)
    (src : Option (List Char)) :
    (TextChunker.createChunk content idx st src).metadata.endChar
      - (TextChunker.createChunk content idx st src).metadata.startChar
      = ((TextChunker.createChunk content idx st src).content.length : ℤ) := by
  simp [TextChunker.createChunk]

/-- A nonempty first piece keeps joinWith nonempty. -/
theorem joinWith_ne_nil_of_head {q : List Char} (hq : q ≠ [])
    (qs : List (List Char)) : joinWith [' '] (q :: qs) ≠ [] := by
  cases qs with
  | nil => simpa [joinWith_singleton] using hq
  | cons r rs =>
    rw [joinWith_cons_cons]
    simp

/-- joinWith of sentences that all end in non-whitespace ends in
non-whitespace. -/
theorem joinWith_endsNonWs :
    ∀ ps : List (List Char), (∀ s ∈ ps, s ≠ [] ∧ endsNonWs s) →
      endsNonWs (joinWith [' '] ps) := by
  intro ps
  induction ps with
  | nil => intro _ c hc; simp [joinWith] at hc
  | cons p qs ih =>
    intro hall
    cases qs with
    | nil =>
      rw [joinWith_singleton]
      exact (hall p (by simp)).2
    | cons q qs' =>
      rw [joinWith_cons_cons, List.append_assoc]
      have hq : q ≠ [] := (hall q (by simp)).1
      have hJ : joinWith [' '] (q :: qs') ≠ [] := joinWith_ne_nil_of_head hq qs'
      have hJe : endsNonWs (joinWith [' '] (q :: qs')) := by
        apply ih
        intro s hsmem
        exact hall s (by simp [hsmem])
      have := endsNonWs_append hJ hJe ([' '])
      have h2 := endsNonWs_append (s := [' '] ++ joinWith [' '] (q :: qs'))
        (by simp) this p
      exact h2

/-- joinWith of sentences whose first one starts in non-whitespace starts in
non-whitespace. -/
theorem joinWith_headNonWs {p : List Char} (hp : p ≠ []) (hh : headNonWs p)
    (qs : List (List Char)) : headNonWs (joinWith [' '] (p :: qs)) := by
  cases qs with
  | nil => rwa [joinWith_singleton]
  | cons q qs' =>
    rw [joinWith_cons_cons, List.append_assoc]
    intro c hc
    apply hh c
    rw [List.head?_append] at hc
    cases hp' : p.head? with
    | none =>
      exact absurd (List.head?_eq_none_iff.mp hp') hp
    | some d =>
      rw [hp'] at hc
      have hdc : d = c := by simpa using hc
      rw [← hdc]

/-- Unfolding equation of chunkLoop on an empty sentence list. -/
theorem chunkLoop_nil (cs ov : ℤ) (src : Option (List Char)) (cur : List Char)
    (idx : ℕ) (st : ℤ) :
    TextChunker.chunkLoop cs ov src [] cur idx st
      = if trimJs cur ≠ [] then [TextChunker.createChunk cur idx st src] else [] := rfl

/-- Unfolding equation of chunkLoop on a sentence cons cell, with the local
lets expanded. -/
theorem chunkLoop_cons (cs ov : ℤ) (src : Option (List Char)) (s : List Char)
    (rest : List (List Char)) (cur : List Char) (idx : ℕ) (st : ℤ) :
    TextChunker.chunkLoop cs ov src (s :: rest) cur idx st
      = if ((cur ++ (if cur ≠ [] then [' '] else []) ++ s).length : ℤ) > cs
            ∧ 0 < cur.length then
          TextChunker.createChunk cur idx st src ::
            TextChunker.chunkLoop cs ov src rest
              (TextChunker.getOverlapText cur ov
                ++ (if TextChunker.getOverlapText cur ov ≠ [] then [' '] else []) ++ s)
              (idx + 1)
              (st + ((TextChunker.getOverlapText cur ov
                  ++ (if TextChunker.getOverlapText cur ov ≠ [] then [' '] else [])
                  ++ s).length : ℤ)
                - ((TextChunker.getOverlapText cur ov).length : ℤ)
                - (s.length : ℤ) - 1)
        else
          TextChunker.chunkLoop cs ov src rest
            (cur ++ (if cur ≠ [] then [' '] else []) ++ s) idx st := rfl

/-- Appending more sentences never shortens the accumulated buffer. -/
theorem joinAcc_length_mono :
    ∀ (sents : List (List Char)) (cur : List Char),
      cur.length ≤ (joinAcc cur sents).length := by
  intro sents
  induction sents with
  | nil => intro cur; exact le_refl _
  | cons s rest ih =>
    intro cur
    calc cur.length ≤ (cur ++ (if cur ≠ [] then [' '] else []) ++ s).length := by
          simp [List.length_append]
      _ ≤ (joinAcc (cur ++ (if cur ≠ [] then [' '] else []) ++ s) rest).length := ih _
      _ = (joinAcc cur (s :: rest)).length := rfl

/-- Accumulating into a nonempty buffer is joining with single spaces. -/
theorem joinAcc_of_ne_nil :
    ∀ (sents : List (List Char)) (cur : List Char), cur ≠ [] →
      joinAcc cur sents = joinWith [' '] (cur :: sents) := by
  intro sents
  induction sents with
  | nil => intro cur _; rw [joinAcc, joinWith_singleton]
  | cons s rest ih =>
    intro cur hcur
    have h1 : joinAcc cur (s :: rest) = joinAcc (cur ++ [' '] ++ s) rest := by
      rw [joinAcc, if_pos hcur]
    have h2 : cur ++ [' '] ++ s ≠ [] := by simp
    rw [h1, ih _ h2]
    cases rest with
    | nil =>
      rw [joinWith_singleton, joinWith_cons_cons, joinWith_singleton]
    | cons q qs =>
      rw [joinWith_cons_cons, joinWith_cons_cons (p := cur),
        joinWith_cons_cons (p := s)]
      simp [List.append_assoc]

/-- Accumulating from the empty buffer joins the (nonempty) sentences with
single spaces. -/
theorem joinAcc_nil_eq :
    ∀ sents : List (List Char), (∀ s ∈ sents, s ≠ []) →
      joinAcc [] sents = joinWith [' '] sents := by
  intro sents hall
  cases sents with
  | nil => rfl
  | cons s rest =>
    have h1 : joinAcc [] (s :: rest) = joinAcc s rest := by
      rw [joinAcc]
      simp
    rw [h1]
    cases rest with
    | nil => rw [joinAcc, joinWith_singleton]
    | cons q qs => exact joinAcc_of_ne_nil (q :: qs) s (hall s (by simp))

/-- Length accounting for joinWith with a one-character separator. -/
theorem joinWith_length :
    ∀ ps : List (List Char), ps ≠ [] →
      (joinWith [' '] ps).length + 1 = (ps.map List.length).sum + ps.length := by
  intro ps
  induction ps with
  | nil => intro h; exact absurd rfl h
  | cons p qs ih =>
    intro _
    cases qs with
    | nil => simp [joinWith_singleton]
    | cons q qs' =>
      have hih := ih (by simp)
      rw [joinWith_cons_cons]
      simp only [List.length_append, List.map_cons, List.sum_cons,
        List.length_cons, List.length_singleton, List.length_nil] at hih ⊢
      omega

/-- Length accounting for a character-class split: the pieces plus one
character per separator reassemble the input. -/
theorem splitAnyChar_weight (seps : List Char) :
    ∀ l : List Char,
      ((splitAnyChar seps l).map List.length).sum + (splitAnyChar seps l).length
        = l.length + 1 := by
  intro l
  induction l with
  | nil => simp [splitAnyChar]
  | cons c rest ih =>
    by_cases hc : c ∈ seps
    · rw [splitAnyChar, if_pos hc]
      simp only [List.map_cons, List.sum_cons, List.length_cons, List.length_nil] at ih ⊢
      omega
    · rw [splitAnyChar, if_neg hc]
      cases hr : splitAnyChar seps rest with
      | nil => exact absurd hr (splitAnyChar_ne_nil seps rest)
      | cons p ps =>
        rw [hr] at ih
        simp only [List.map_cons, List.sum_cons, List.length_cons] at ih ⊢
        omega

/-- Trimming each piece and discarding empties never increases the weight. -/
theorem trim_filter_weight :
    ∀ ps : List (List Char),
      ((((ps.map trimJs).filter (fun s => s ≠ [])).map List.length).sum
          + ((ps.map trimJs).filter (fun s => s ≠ [])).length)
        ≤ (ps.map List.length).sum + ps.length := by
  intro ps
  induction ps with
  | nil => simp
  | cons p qs ih =>
    simp only [List.map_cons, List.filter_cons]
    by_cases hp : trimJs p ≠ []
    · rw [if_pos (by simpa using hp)]
      simp only [List.map_cons, List.sum_cons, List.length_cons]
      have := trimJs_length_le p
      omega
    · rw [if_neg (by simpa using hp)]
      simp only [List.map_cons, List.sum_cons, List.length_cons]
      omega

/-- The sentences of a text joined with single spaces are at most as long as
the text itself. -/
theorem splitIntoSentences_join_length {text : List Char}
    (hs : TextChunker.splitIntoSentences text ≠ []) :
    (joinWith [' '] (TextChunker.splitIntoSentences text)).length ≤ text.length := by
  have h1 := joinWith_length (TextChunker.splitIntoSentences text) hs
  have h2 := trim_filter_weight (splitAnyChar ['.', '!', '?'] text)
  have h3 := splitAnyChar_weight ['.', '!', '?'] text
  rw [TextChunker.splitIntoSentences] at h1 ⊢
  omega

/-- Every chunk emitted by the loop satisfies the endChar bookkeeping of
createChunk: endChar - startChar is the trimmed content length. -/
theorem chunkLoop_endChar (cs ov : ℤ) (src : Option (List Char)) :
    ∀ (sents : List (List Char)) (cur : List Char) (idx : ℕ) (st : ℤ),
      ∀ ch ∈ TextChunker.chunkLoop cs ov src sents cur idx st,
        ch.metadata.endChar - ch.metadata.startChar = (ch.content.length : ℤ) := by
  intro sents
  induction sents with
  | nil =>
    intro cur idx st ch hch
    rw [chunkLoop_nil] at hch
    split at hch
    · rw [List.mem_singleton] at hch
      subst hch
      exact createChunk_endChar cur idx st src
    · simp at hch
  | cons s rest ih =>
    intro cur idx st ch hch
    rw [chunkLoop_cons] at hch
    by_cases hcond : ((cur ++ (if cur ≠ [] then [' '] else []) ++ s).length : ℤ) > cs
        ∧ 0 < cur.length
    · rw [if_pos hcond] at hch
      rcases List.mem_cons.mp hch with hc | hc
      · subst hc
        exact createChunk_endChar cur idx st src
      · exact ih _ _ _ ch hc
    · rw [if_neg hcond] at hch
      exact ih _ _ _ ch hch

/-- With a nonnegative overlap parameter each closing of a passage reseeds the
buffer with a nonempty overlap, so the approximate offset bookkeeping leaves
startChar unchanged: every emitted chunk carries the startChar the loop was
entered with. -/
theorem chunkLoop_startChar (cs : ℤ) {ov : ℤ} (src : Option (List Char))
    (hov : 0 ≤ ov) :
    ∀ (sents : List (List Char)), (∀ s ∈ sents, s ≠ [] ∧ endsNonWs s) →
      ∀ (cur : List Char) (idx : ℕ) (st : ℤ), endsNonWs cur →
        ∀ ch ∈ TextChunker.chunkLoop cs ov src sents cur idx st,
          ch.metadata.startChar = st := by
  intro sents
  induction sents with
  | nil =>
    intro _ cur idx st _ ch hch
    rw [chunkLoop_nil] at hch
    split at hch
    · rw [List.mem_singleton] at hch
      subst hch
      exact createChunk_startChar cur idx st src
    · simp at hch
  | cons s rest ih =>
    intro hall cur idx st hcur ch hch
    have hs := hall s (by simp)
    have hrest : ∀ x ∈ rest, x ≠ [] ∧ endsNonWs x := by
      intro x hx
      exact hall x (by simp [hx])
    rw [chunkLoop_cons] at hch
    by_cases hcond : ((cur ++ (if cur ≠ [] then [' '] else []) ++ s).length : ℤ) > cs
        ∧ 0 < cur.length
    · rw [if_pos hcond] at hch
      rcases List.mem_cons.mp hch with hc | hc
      · subst hc
        exact createChunk_startChar cur idx st src
      · have hcurne : cur ≠ [] := List.length_pos.mp hcond.2
        have hovt : TextChunker.getOverlapText cur ov ≠ [] :=
          getOverlapText_ne_nil hcurne hcur hov
        have hif : (if TextChunker.getOverlapText cur ov ≠ [] then [' ']
            else ([] : List Char)) = [' '] := if_pos hovt
        rw [hif] at hc
        have hnew : endsNonWs ((TextChunker.getOverlapText cur ov ++ [' ']) ++ s) :=
          endsNonWs_append hs.1 hs.2 _
        have hres := ih hrest _ (idx + 1) _ hnew ch hc
        rw [hres]
        simp only [List.length_append, List.length_singleton]
        push_cast
        ring
    · rw [if_neg hcond] at hch
      have hnew : endsNonWs ((cur ++ (if cur ≠ [] then [' '] else [])) ++ s) :=
        endsNonWs_append hs.1 hs.2 _
      exact ih hrest _ idx st hnew ch hch

/-- If the fully accumulated buffer never exceeds chunkSize, the loop closes
nothing along the way and emits exactly the final buffer (when its trim is
nonempty). -/
theorem chunkLoop_noClose (cs ov : ℤ) (src : Option (List Char)) :
    ∀ (sents : List (List Char)) (cur : List Char) (idx : ℕ) (st : ℤ),
      ((joinAcc cur sents).length : ℤ) ≤ cs →
      TextChunker.chunkLoop cs ov src sents cur idx st
        = if trimJs (joinAcc cur sents) ≠ [] then
            [TextChunker.createChunk (joinAcc cur sents) idx st src]
          else [] := by
  intro sents
  induction sents with
  | nil =>
    intro cur idx st _
    rw [chunkLoop_nil, joinAcc]
  | cons s rest ih =>
    intro cur idx st hlen
    have hacc : joinAcc cur (s :: rest)
        = joinAcc (cur ++ (if cur ≠ [] then [' '] else []) ++ s) rest := rfl
    have hmono : ((cur ++ (if cur ≠ [] then [' '] else []) ++ s).length : ℤ)
        ≤ ((joinAcc cur (s :: rest)).length : ℤ) := by
      rw [hacc]
      exact_mod_cast joinAcc_length_mono rest _
    rw [chunkLoop_cons, if_neg (by
      intro hcontra
      have := hcontra.1
      omega)]
    rw [hacc] at hlen ⊢
    exact ih _ idx st hlen

/-! ### Helper lemmas about the similarity ranking -/

/-- Filtering any score class through an orderedInsert along simGE: the
inserted element lands before every element of its own score class, because
it only passes elements of strictly larger score. -/
theorem filter_orderedInsert_sim (s : ℚ) (a : SimilarChunk)
    (l : List SimilarChunk) :
    (List.orderedInsert EmbeddingService.simGE a l).filter
        (fun c => c.similarity = s)
      = if a.similarity = s then
          a :: l.filter (fun c => c.similarity = s)
        else
          l.filter (fun c => c.similarity = s) := by
  rw [List.orderedInsert_eq_take_drop, List.filter_append, List.filter_cons]
  by_cases ha : a.similarity = s
  · have htake : (l.takeWhile fun b => decide ¬EmbeddingService.simGE a b).filter
        (fun c => c.similarity = s) = [] := by
      rw [List.filter_eq_nil_iff]
      intro b hb
      have hb2 := List.mem_takeWhile_imp hb
      simp only [decide_eq_true_eq] at hb2
      have hlt : a.similarity < b.similarity := by
        simpa [EmbeddingService.simGE, not_le] using hb2
      simp only [decide_eq_true_eq]
      intro hbs
      rw [ha] at hlt
      rw [hbs] at hlt
      exact lt_irrefl s hlt
    rw [if_pos (decide_eq_true ha), htake]
    conv_rhs =>
      rw [← List.takeWhile_append_dropWhile
        (fun b => decide ¬EmbeddingService.simGE a b) l]
    rw [if_pos ha, List.filter_append, htake]
    simp
  · rw [if_neg (by simpa using ha), if_neg ha]
    conv_rhs =>
      rw [← List.takeWhile_append_dropWhile
        (fun b => decide ¬EmbeddingService.simGE a b) l]
    rw [List.filter_append]

/-- Stability of the insertion sort along simGE: within any exact score
class, the sorted list preserves the original order (the filtered
subsequences coincide). -/
theorem filter_insertionSort_sim (s : ℚ) :
    ∀ l : List SimilarChunk,
      (List.insertionSort EmbeddingService.simGE l).filter
          (fun c => c.similarity = s)
        = l.filter (fun c => c.similarity = s) := by
  intro l
  induction l with
  | nil => rfl
  | cons a l ih =>
    have hstep : List.insertionSort EmbeddingService.simGE (a :: l)
        = List.orderedInsert EmbeddingService.simGE a
            (List.insertionSort EmbeddingService.simGE l) := rfl
    rw [hstep, filter_orderedInsert_sim, List.filter_cons]
    by_cases ha : a.similarity = s
    · rw [if_pos ha, if_pos (decide_eq_true ha), ih]
    · rw [if_neg ha, if_neg (by simpa using ha), ih]

/-! ### Helper lemmas about embedding and ingestion -/

/-- A provider failure on any chunk of the batch fails the whole
embedChunks call (the loop awaits the chunks in order and the first throw
propagates). -/
theorem embedChunks_error {ε : Type} (p : List Char → Except ε (List ℚ)) :
    ∀ (cs : List Chunk) (c : Chunk), c ∈ cs → exceptOk (p c.content) = false →
      exceptOk (EmbeddingService.embedChunks p cs) = false := by
  intro cs
  induction cs with
  | nil => intro c hc; simp at hc
  | cons d rest ih =>
    intro c hc hfail
    rcases List.mem_cons.mp hc with h | h
    · subst h
      cases hp : p c.content with
      | error e => simp [EmbeddingService.embedChunks, hp, exceptOk]
      | ok v =>
        rw [hp] at hfail
        simp [exceptOk] at hfail
    · cases hp : p d.content with
      | error e => simp [EmbeddingService.embedChunks, hp, exceptOk]
      | ok v =>
        have hr := ih c h hfail
        cases hrr : EmbeddingService.embedChunks p rest with
        | error e => simp [EmbeddingService.embedChunks, hp, hrr, exceptOk]
        | ok w =>
          rw [hrr] at hr
          simp [exceptOk] at hr

/-- The foldl computing sumSquares, restated as a mapped sum. -/
theorem sumSquares_eq_sum (a : List ℚ) :
    EmbeddingService.sumSquares a = (a.map (fun v => v * v)).sum := by
  rw [EmbeddingService.sumSquares]
  have h : ∀ (l : List ℚ) (init : ℚ),
      l.foldl (fun sum val => sum + val * val) init
        = init + (l.map (fun v => v * v)).sum := by
    intro l
    induction l with
    | nil => intro init; simp
    | cons x xs ih =>
      intro init
      simp only [List.foldl_cons, List.map_cons, List.sum_cons, ih]
      ring
  rw [h]
  ring

/-- The foldl computing dotProduct, restated as a mapped sum. -/
theorem dotProduct_eq_sum (a b : List ℚ) :
    EmbeddingService.dotProduct a b
      = ((a.zip b).map (fun p => p.1 * p.2)).sum := by
  rw [EmbeddingService.dotProduct]
  have h : ∀ (l : List (ℚ × ℚ)) (init : ℚ),
      l.foldl (fun sum p => sum + p.1 * p.2) init
        = init + (l.map (fun p => p.1 * p.2)).sum := by
    intro l
    induction l with
    | nil => intro init; simp
    | cons x xs ih =>
      intro init
      simp only [List.foldl_cons, List.map_cons, List.sum_cons, ih]
      ring
  rw [h]
  ring

/-- A sum of squares vanishes only when every entry vanishes. -/
theorem sumSquares_eq_zero {a : List ℚ}
    (h : EmbeddingService.sumSquares a = 0) : ∀ v ∈ a, v = 0 := by
  rw [sumSquares_eq_sum] at h
  induction a with
  | nil => intro v hv; simp at hv
  | cons x xs ih =>
    simp only [List.map_cons, List.sum_cons] at h
    have hx : 0 ≤ x * x := mul_self_nonneg x
    have hxs : 0 ≤ (xs.map (fun v => v * v)).sum := by
      apply List.sum_nonneg
      intro y hy
      obtain ⟨v, _, hv⟩ := List.mem_map.mp hy
      rw [← hv]
      exact mul_self_nonneg v
    have hx0 : x * x = 0 := by linarith
    have hxs0 : (xs.map (fun v => v * v)).sum = 0 := by linarith
    intro v hv
    rcases List.mem_cons.mp hv with hvx | hvxs
    · subst hvx
      exact mul_self_eq_zero.mp hx0
    · exact ih hxs0 v hvxs

/-- Justification for the NaN case of cosineSimilarityJs: when the product of
magnitudes vanishes, one of the vectors is the zero vector, so the JS
numerator is 0 as well and the division is 0/0 = NaN. -/
theorem dotProduct_eq_zero_of_mag_zero {a b : List ℚ}
    (h : EmbeddingService.ratSqrt (EmbeddingService.sumSquares a)
        * EmbeddingService.ratSqrt (EmbeddingService.sumSquares b) = 0) :
    EmbeddingService.dotProduct a b = 0 := by
  have hzero : (∀ v ∈ a, v = 0) ∨ (∀ v ∈ b, v = 0) := by
    rcases mul_eq_zero.mp h with hra | hrb
    · left
      apply sumSquares_eq_zero
      rw [EmbeddingService.ratSqrt, div_eq_zero_iff] at hra
      rcases hra with hnum | hden
      · have hn : Nat.sqrt (EmbeddingService.sumSquares a).num.toNat = 0 := by
          exact_mod_cast hnum
        have h0 : (EmbeddingService.sumSquares a).num.toNat = 0 :=
          Nat.sqrt_eq_zero.mp hn
        have hnn : 0 ≤ EmbeddingService.sumSquares a := by
          rw [sumSquares_eq_sum]
          apply List.sum_nonneg
          intro y hy
          obtain ⟨v, _, hv⟩ := List.mem_map.mp hy
          rw [← hv]
          exact mul_self_nonneg v
        have : (EmbeddingService.sumSquares a).num = 0 := by
          have := Rat.num_nonneg.mpr hnn
          omega
        exact Rat.num_eq_zero.mp this
      · exfalso
        have hd : Nat.sqrt (EmbeddingService.sumSquares a).den = 0 := by
          exact_mod_cast hden
        have := (EmbeddingService.sumSquares a).den_nz
        exact this (Nat.sqrt_eq_zero.mp hd)
    · right
      apply sumSquares_eq_zero
      rw [EmbeddingService.ratSqrt, div_eq_zero_iff] at hrb
      rcases hrb with hnum | hden
      · have hn : Nat.sqrt (EmbeddingService.sumSquares b).num.toNat = 0 := by
          exact_mod_cast hnum
        have h0 : (EmbeddingService.sumSquares b).num.toNat = 0 :=
          Nat.sqrt_eq_zero.mp hn
        have hnn : 0 ≤ EmbeddingService.sumSquares b := by
          rw [sumSquares_eq_sum]
          apply List.sum_nonneg
          intro y hy
          obtain ⟨v, _, hv⟩ := List.mem_map.mp hy
          rw [← hv]
          exact mul_self_nonneg v
        have : (EmbeddingService.sumSquares b).num = 0 := by
          have := Rat.num_nonneg.mpr hnn
          omega
        exact Rat.num_eq_zero.mp this
      · exfalso
        have hd : Nat.sqrt (EmbeddingService.sumSquares b).den = 0 := by
          exact_mod_cast hden
        have := (EmbeddingService.sumSquares b).den_nz
        exact this (Nat.sqrt_eq_zero.mp hd)
  rw [dotProduct_eq_sum]
  apply List.sum_eq_zero
  intro y hy
  obtain ⟨pq, hpq, hv⟩ := List.mem_map.mp hy
  obtain ⟨hp1, hp2⟩ := List.of_mem_zip hpq
  rcases hzero with hza | hzb
  · rw [← hv, hza pq.1 hp1, zero_mul]
  · rw [← hv, hzb pq.2 hp2, mul_zero]

/-! ### Claim theorems -/

/-- C2 counterexample: the store's add operation is not idempotent per
passage id. Applying addChunks([p]) twice to the empty store leaves two
stored passages with id p.id, not exactly one: the claim fails at this
concrete input. -/
theorem C2_counterexample :
    ¬ (((VectorStore.addChunks (VectorStore.addChunks [] [pEx]) [pEx]).filter
        (fun c => c.id = pEx.id)).length = 1) := by decide

/-- C2 amended: the vector store's add operation is a plain append with no
deduplication by id; applying addChunks([p]) twice leaves two more stored
passages with id p.id than before (the second application duplicates, it
does not overwrite). -/
theorem C2_addChunks_duplicates (store : List EmbeddedChunk) (p : EmbeddedChunk) :
    ((VectorStore.addChunks (VectorStore.addChunks store [p]) [p]).filter
        (fun c => c.id = p.id)).length
      = (store.filter (fun c => c.id = p.id)).length + 2 := by
  simp [VectorStore.addChunks, List.filter_append]

/-- C4: asking a question against an empty corpus returns the fixed
"no documents indexed" sentinel with an empty sources list as a normal
(Except.ok) result, and the result does not depend on the embedding provider
or the answer synthesizer, which is the observable meaning of "without
invoking" them. -/
theorem C4_askQuestion_empty_sentinel {ε : Type}
    (createEmbedding createEmbedding2 : List Char → Except ε (List ℚ))
    (complete complete2 : List Char → Except ε (Option (List Char)))
    (question : List Char) :
    RagService.askQuestion [] createEmbedding complete question
        = .ok { answer := some RagService.noDocumentsSentinel, sources := [] }
      ∧ RagService.askQuestion [] createEmbedding complete question
        = RagService.askQuestion [] createEmbedding2 complete2 question := by
  constructor
  · rfl
  · rfl

/-- C7 (code bug): cosineSimilarity performs no zero-magnitude check. At the
zero-magnitude input a = [0], b = [1] the JS code computes 0 / (0 * 1), which
is the IEEE NaN, and returns it silently instead of failing with an error;
the function has no error path at all. -/
theorem C7_zero_magnitude_returns_nan :
    EmbeddingService.cosineSimilarityJs [0] [1] = JsNumber.nan := by
  rw [EmbeddingService.cosineSimilarityJs]
  rw [if_pos (by decide)]
  have h0 : EmbeddingService.sumSquares [0] = 0 := by
    rw [sumSquares_eq_sum]
    norm_num
  have hr0 : EmbeddingService.ratSqrt 0 = 0 := by
    rw [EmbeddingService.ratSqrt]
    norm_num
  rw [h0, hr0, zero_mul, if_pos rfl]

/-- C8 (code bug): neither the vector store nor the ingestion path validates
embedding dimensions. With an index whose established dimension is 2 (the
stored vector [1, 0]) and a provider returning the one-dimensional vector
[1], processDocument succeeds and stores the mismatched passage: the store
afterwards holds vectors of dimensions 2 and 1 side by side, with no error
raised. -/
theorem C8_dimension_mismatch_accepted :
    exceptOk (RagService.processDocument dim1Provider [estChunk]
        "Hello.".toList "f.txt".toList).1 = true
      ∧ ((RagService.processDocument dim1Provider [estChunk]
          "Hello.".toList "f.txt".toList).2.map (fun c => c.embedding.length))
        = [2, 1] := by decide

/-- C10: when the computed overlap word count min(floor(wordCount * 0.3),
overlap / 10) is 0, getOverlapText returns the entire buffer rather than the
empty string, because words.slice(-0) is words.slice(0). -/
theorem C10_zero_count_returns_full_buffer (text : List Char) (ov : ℤ)
    (hne : text ≠ [])
    (h : TextChunker.overlapWordCount (splitOnChar ' ' text).length ov = 0) :
    TextChunker.getOverlapText text ov = text := by
  apply getOverlapText_count_zero
  rw [TextChunker.overlapCount, h, jsTrunc_zero]

/-- C10 witness: the two-word buffer "A B" with the configured overlap 50 has
overlap word count min(floor(2 * 0.3), 5) = 0, and getOverlapText returns the
whole buffer. -/
theorem C10_witness :
    ("A B".toList ≠ []
        ∧ TextChunker.overlapWordCount (splitOnChar ' ' "A B".toList).length 50 = 0)
      ∧ TextChunker.getOverlapText "A B".toList 50 = "A B".toList := by
  have h0 : TextChunker.overlapWordCount (splitOnChar ' ' "A B".toList).length 50 = 0 := by
    rw [show (splitOnChar ' ' "A B".toList).length = 2 from by decide]
    rw [TextChunker.overlapWordCount]
    norm_num
  exact ⟨⟨by decide, h0⟩,
    C10_zero_count_returns_full_buffer "A B".toList 50 (by decide) h0⟩

/-- C3: ingestion is all-or-nothing. If the embedding provider fails on any
chunk of the batch the chunker produced for the document, processDocument
returns an error and the vector store is exactly what it was before the
call: no passage of the batch is indexed. -/
theorem C3_processDocument_all_or_nothing {ε : Type}
    (createEmbedding : List Char → Except ε (List ℚ))
    (store : List EmbeddedChunk) (buffer filename : List Char)
    (hfail : ∃ c ∈ TextChunker.chunk
        (FileProcessor.processText buffer filename).content 500 50 (some filename),
        exceptOk (createEmbedding c.content) = false) :
    (RagService.processDocument createEmbedding store buffer filename).2 = store
      ∧ exceptOk
          (RagService.processDocument createEmbedding store buffer filename).1
        = false := by
  obtain ⟨c, hc, hfc⟩ := hfail
  have herr := embedChunks_error createEmbedding _ c hc hfc
  rw [RagService.processDocument]
  cases hE : EmbeddingService.embedChunks createEmbedding
      (TextChunker.chunk (FileProcessor.processText buffer filename).content
        500 50 (some filename)) with
  | error e => exact ⟨rfl, rfl⟩
  | ok v =>
    rw [hE] at herr
    simp [exceptOk] at herr

/-- C3 witness: a provider that always fails, applied to the one-chunk
document "Hello." over the empty store: the hypothesis holds and the store
is unchanged while the request errors. -/
theorem C3_witness :
    (∃ c ∈ TextChunker.chunk
        (FileProcessor.processText "Hello.".toList "f.txt".toList).content
        500 50 (some "f.txt".toList),
        exceptOk (failProvider c.content) = false)
      ∧ (RagService.processDocument failProvider [] "Hello.".toList
          "f.txt".toList).2 = []
      ∧ exceptOk (RagService.processDocument failProvider [] "Hello.".toList
          "f.txt".toList).1 = false := by
  have h := C3_processDocument_all_or_nothing failProvider []
    "Hello.".toList "f.txt".toList (by decide)
  exact ⟨by decide, h.1, h.2⟩

/-- C5 counterexample: the claim fails on the code. The text "Hi." is
shorter than the chunk size 500 and nonempty after trimming, and chunk does
return exactly one passage, but that passage's content is "Hi", not the
trimmed input "Hi.": the sentence splitter consumes the terminal
punctuation. -/
theorem C5_counterexample :
    ("Hi.".toList.length < 500 ∧ trimJs "Hi.".toList ≠ [])
      ∧ (TextChunker.chunk "Hi.".toList 500 50 none).length = 1
      ∧ ¬ (∀ c ∈ TextChunker.chunk "Hi.".toList 500 50 none,
            c.content = trimJs "Hi.".toList) := by decide

/-- C5 amended: for every text strictly shorter than chunkSize that has at
least one sentence unit, chunk returns exactly one passage, whose content is
the sentence units joined by single spaces (the trimmed input with the
terminal punctuation removed and inter-sentence whitespace normalized); a
text with no sentence unit (for example ".") yields the empty sequence even
when it is nonempty after trimming. -/
theorem C5_short_text_single_chunk (text : List Char) (cs ov : ℤ)
    (src : Option (List Char)) (hlen : (text.length : ℤ) < cs)
    (hs : TextChunker.splitIntoSentences text ≠ []) :
    TextChunker.chunk text cs ov src
        = [TextChunker.createChunk
            (joinWith [' '] (TextChunker.splitIntoSentences text)) 0 0 src]
      ∧ (TextChunker.chunk text cs ov src).map (fun c => c.content)
        = [joinWith [' '] (TextChunker.splitIntoSentences text)] := by
  have hall : ∀ s ∈ TextChunker.splitIntoSentences text, s ≠ [] :=
    fun s hs' => (mem_splitIntoSentences hs').1
  have hJ : joinAcc [] (TextChunker.splitIntoSentences text)
      = joinWith [' '] (TextChunker.splitIntoSentences text) :=
    joinAcc_nil_eq _ hall
  have hlenJ : ((joinWith [' '] (TextChunker.splitIntoSentences text)).length : ℤ)
      ≤ cs := by
    have h1 := splitIntoSentences_join_length hs
    have h2 : ((joinWith [' '] (TextChunker.splitIntoSentences text)).length : ℤ)
        ≤ (text.length : ℤ) := by exact_mod_cast h1
    omega
  have hloop := chunkLoop_noClose cs ov src (TextChunker.splitIntoSentences text)
    [] 0 0 (by rw [hJ]; exact hlenJ)
  rw [hJ] at hloop
  cases hsents : TextChunker.splitIntoSentences text with
  | nil => exact absurd hsents hs
  | cons s1 rest =>
    have hs1 := @mem_splitIntoSentences text s1 (by rw [hsents]; simp)
    have hhead : headNonWs (joinWith [' '] (s1 :: rest)) :=
      joinWith_headNonWs hs1.1 hs1.2.1 rest
    have hends : endsNonWs (joinWith [' '] (s1 :: rest)) := by
      apply joinWith_endsNonWs
      intro s hsmem
      have := @mem_splitIntoSentences text s (by rw [hsents]; exact hsmem)
      exact ⟨this.1, this.2.2⟩
    have hne : joinWith [' '] (s1 :: rest) ≠ [] :=
      joinWith_ne_nil_of_head hs1.1 rest
    have htfix : trimJs (joinWith [' '] (s1 :: rest))
        = joinWith [' '] (s1 :: rest) := trimJs_eq_self hhead hends
    rw [hsents] at hloop
    have hcond : trimJs (joinWith [' '] (s1 :: rest)) ≠ [] := by
      rw [htfix]
      exact hne
    rw [TextChunker.chunk, hsents, hloop, if_pos hcond]
    constructor
    · rfl
    · simp only [List.map_cons, List.map_nil]
      rw [createChunk_content, htfix]

/-- C5 witness: the amended statement applied to the concrete input "Hi."
with chunkSize 500 and overlap 50. -/
theorem C5_witness :
    TextChunker.chunk "Hi.".toList 500 50 none
        = [TextChunker.createChunk
            (joinWith [' '] (TextChunker.splitIntoSentences "Hi.".toList)) 0 0 none]
      ∧ (TextChunker.chunk "Hi.".toList 500 50 none).map (fun c => c.content)
        = [joinWith [' '] (TextChunker.splitIntoSentences "Hi.".toList)] :=
  C5_short_text_single_chunk "Hi.".toList 500 50 none (by decide) (by decide)

/-- C6 counterexample: the claim fails on the code as stated for every
parameter value. With a negative overlap parameter (overlap = -1000) the
overlap text becomes empty at each close, and the offset bookkeeping then
decreases startChar by one per emitted passage: chunking "aa. bb. cc." with
chunkSize 3 yields startChar values 0, -1, -2, which are not monotonically
non-decreasing. -/
theorem C6_counterexample :
    ((TextChunker.chunk "aa. bb. cc.".toList 3 (-1000) none).map
        (fun c => c.metadata.startChar)) = [0, -1, -2]
      ∧ ¬ List.Pairwise (· ≤ ·)
          ((TextChunker.chunk "aa. bb. cc.".toList 3 (-1000) none).map
            (fun c => c.metadata.startChar)) := by
  have hcnt : TextChunker.overlapCount 1 (-1000) = -100 := by
    rw [TextChunker.overlapCount, TextChunker.overlapWordCount]
    norm_num [jsTrunc]
  have hov1 : TextChunker.getOverlapText ['a', 'a'] (-1000) = [] := by
    simp only [TextChunker.getOverlapText]
    rw [show (splitOnChar ' ' ['a', 'a']).length = 1 from by decide, hcnt]
    decide
  have hov2 : TextChunker.getOverlapText ['b', 'b'] (-1000) = [] := by
    simp only [TextChunker.getOverlapText]
    rw [show (splitOnChar ' ' ['b', 'b']).length = 1 from by decide, hcnt]
    decide
  have hr : TextChunker.chunk "aa. bb. cc.".toList 3 (-1000) none
      = [TextChunker.createChunk "aa".toList 0 0 none,
         TextChunker.createChunk "bb".toList 1 (-1) none,
         TextChunker.createChunk "cc".toList 2 (-2) none] := by
    rw [TextChunker.chunk]
    rw [show TextChunker.splitIntoSentences "aa. bb. cc.".toList
        = ["aa".toList, "bb".toList, "cc".toList] from by decide]
    rw [TextChunker.chunkLoop.eq_def]
    norm_num
    rw [TextChunker.chunkLoop.eq_def]
    norm_num
    rw [hov1]
    norm_num
    rw [TextChunker.chunkLoop.eq_def]
    norm_num
    rw [hov2]
    norm_num
    rw [TextChunker.chunkLoop.eq_def]
    norm_num
    decide
  rw [hr]
  constructor
  · decide
  · decide

/-- C6 amended: for every text, chunkSize and source, and every nonnegative
overlap (the counterexample shows a negative overlap breaks monotonicity),
the passages of one chunk call have monotonically non-decreasing startChar
values (in fact all equal), and for every passage endChar minus startChar
equals the length of its (trimmed) content; the latter holds by the
createChunk bookkeeping alone. -/
theorem C6_chunk_offsets (text : List Char) (cs ov : ℤ)
    (src : Option (List Char)) (hov : 0 ≤ ov) :
    List.Pairwise (· ≤ ·)
        ((TextChunker.chunk text cs ov src).map (fun c => c.metadata.startChar))
      ∧ ∀ c ∈ TextChunker.chunk text cs ov src,
          c.metadata.endChar - c.metadata.startChar = (c.content.length : ℤ) := by
  constructor
  · have hall : ∀ s ∈ TextChunker.splitIntoSentences text,
        s ≠ [] ∧ endsNonWs s := by
      intro s hs
      exact ⟨(mem_splitIntoSentences hs).1, (mem_splitIntoSentences hs).2.2⟩
    have hcur : endsNonWs ([] : List Char) := by
      intro c hc
      simp at hc
    have hst := chunkLoop_startChar cs src hov
      (TextChunker.splitIntoSentences text) hall [] 0 0 hcur
    apply List.pairwise_of_forall_mem_list
    intro a ha b hb
    obtain ⟨ca, hca, hae⟩ := List.mem_map.mp ha
    obtain ⟨cb, hcb, hbe⟩ := List.mem_map.mp hb
    rw [TextChunker.chunk] at hca hcb
    rw [← hae, ← hbe, hst ca hca, hst cb hcb]
  · intro c hc
    rw [TextChunker.chunk] at hc
    exact chunkLoop_endChar cs ov src _ [] 0 0 c hc

/-- C6 witness: the amended statement at the concrete input "A. B. C." with
chunkSize 3 and overlap 0. -/
theorem C6_witness :
    List.Pairwise (· ≤ ·)
        ((TextChunker.chunk "A. B. C.".toList 3 0 none).map
          (fun c => c.metadata.startChar))
      ∧ ∀ c ∈ TextChunker.chunk "A. B. C.".toList 3 0 none,
          c.metadata.endChar - c.metadata.startChar = (c.content.length : ℤ) :=
  C6_chunk_offsets "A. B. C.".toList 3 0 none (by decide)

/-- C9: chunking the text "A. B. C." with chunkSize 3 and overlap 0
terminates with the two passages "A B" and "A B C" (the total function
evaluates), and every sentence unit A, B, C occurs as an infix of at least
one emitted passage content: no sentence is dropped. (The zero-count overlap
returns the whole previous buffer, which is why the second passage repeats
A and B.) -/
theorem C9_chunk_abc_no_sentence_dropped :
    (TextChunker.chunk "A. B. C.".toList 3 0 none).map (fun c => c.content)
        = ["A B".toList, "A B C".toList]
      ∧ ∀ s ∈ TextChunker.splitIntoSentences "A. B. C.".toList,
          ∃ ch ∈ TextChunker.chunk "A. B. C.".toList 3 0 none,
            s <:+: ch.content := by
  have hcnt : TextChunker.overlapCount 2 0 = 0 := by
    rw [TextChunker.overlapCount, TextChunker.overlapWordCount]
    norm_num [jsTrunc]
  have hov : TextChunker.getOverlapText ['A', ' ', 'B'] 0 = ['A', ' ', 'B'] := by
    simp only [TextChunker.getOverlapText]
    rw [show (splitOnChar ' ' ['A', ' ', 'B']).length = 2 from by decide, hcnt]
    decide
  have hr : TextChunker.chunk "A. B. C.".toList 3 0 none
      = [TextChunker.createChunk ['A', ' ', 'B'] 0 0 none,
         TextChunker.createChunk ['A', ' ', 'B', ' ', 'C'] 1 0 none] := by
    rw [TextChunker.chunk]
    rw [show TextChunker.splitIntoSentences "A. B. C.".toList
        = [['A'], ['B'], ['C']] from by decide]
    rw [TextChunker.chunkLoop.eq_def]
    norm_num
    rw [TextChunker.chunkLoop.eq_def]
    norm_num
    rw [TextChunker.chunkLoop.eq_def]
    norm_num
    rw [hov]
    norm_num
    rw [TextChunker.chunkLoop.eq_def]
    norm_num
    decide
  rw [hr]
  constructor
  · decide
  · decide

/-- C1: when the query embeds successfully, findSimilarChunks returns (as a
normal result) the ranked corpus: pairwise ordered by descending similarity
score; within every exact score class the corpus order is preserved and the
kept representatives are the first-seen ones (the result's class is a prefix
of the corpus's class); and when the limit is at least the corpus size the
result length equals the corpus size — in particular an empty corpus yields
an empty list, not an error. -/
theorem C1_findSimilarChunks_ranked {ε : Type}
    (createEmbedding : List Char → Except ε (List ℚ)) (query : List Char)
    (corpus : List EmbeddedChunk) (limit : ℕ) (qe : List ℚ)
    (hok : createEmbedding query = .ok qe) (hlim : 0 < limit) :
    EmbeddingService.findSimilarChunks createEmbedding query corpus limit
        = .ok (EmbeddingService.rankChunks qe corpus limit)
      ∧ List.Pairwise (fun a b => b.similarity ≤ a.similarity)
          (EmbeddingService.rankChunks qe corpus limit)
      ∧ (∀ s : ℚ,
          (EmbeddingService.rankChunks qe corpus limit).filter
              (fun c => c.similarity = s)
            <+: (corpus.map fun chunk =>
                ({ toEmbeddedChunk := chunk
                   similarity :=
                    EmbeddingService.cosineSimilarity qe chunk.embedding } :
                  SimilarChunk)).filter (fun c => c.similarity = s))
      ∧ (corpus.length ≤ limit →
          (EmbeddingService.rankChunks qe corpus limit).length = corpus.length) := by
  refine ⟨?_, ?_, ?_, ?_⟩
  · rw [EmbeddingService.findSimilarChunks, hok]
  · simp only [EmbeddingService.rankChunks]
    have hsorted := List.sorted_insertionSort EmbeddingService.simGE
      (corpus.map fun chunk =>
        ({ toEmbeddedChunk := chunk
           similarity :=
            EmbeddingService.cosineSimilarity qe chunk.embedding } : SimilarChunk))
    exact List.Pairwise.sublist (( List.take_prefix limit _).sublist) hsorted
  · intro s
    simp only [EmbeddingService.rankChunks]
    have hpre := List.IsPrefix.filter (fun c => decide (c.similarity = s))
      ( List.take_prefix limit (List.insertionSort EmbeddingService.simGE
        (corpus.map fun chunk =>
          ({ toEmbeddedChunk := chunk
             similarity :=
              EmbeddingService.cosineSimilarity qe chunk.embedding } : SimilarChunk))))
    rwa [filter_insertionSort_sim] at hpre
  · intro hle
    simp only [EmbeddingService.rankChunks]
    rw [List.length_take, List.length_insertionSort, List.length_map]
    omega

/-- C1 witness: the two-chunk corpus corpusEx whose embeddings [1] and [2]
both score 1 against the query embedding [1] (an exact tie), with a provider
that embeds every query as [1] and limit 5 (at least the corpus size 2). -/
theorem C1_witness :
    EmbeddingService.findSimilarChunks dim1Provider "q".toList corpusEx 5
        = .ok (EmbeddingService.rankChunks [1] corpusEx 5)
      ∧ List.Pairwise (fun a b => b.similarity ≤ a.similarity)
          (EmbeddingService.rankChunks [1] corpusEx 5)
      ∧ ((EmbeddingService.rankChunks [1] corpusEx 5).filter
            (fun c => c.similarity = 1)
          <+: (corpusEx.map fun chunk =>
              ({ toEmbeddedChunk := chunk
                 similarity :=
                  EmbeddingService.cosineSimilarity [1] chunk.embedding } :
                SimilarChunk)).filter (fun c => c.similarity = 1))
      ∧ (EmbeddingService.rankChunks [1] corpusEx 5).length = corpusEx.length := by
  obtain ⟨h1, h2, h3, h4⟩ := C1_findSimilarChunks_ranked dim1Provider
    "q".toList corpusEx 5 [1] rfl (by decide)
  exact ⟨h1, h2, h3 1, h4 (by decide)⟩
